import Mathlib

/-!
Shallow embedding of the core of the `discord-bot` repository:
the chat-history merge (`Orchestrator.merge_chat_history`), the alarm
scheduler check pass (`AlarmService.delete_old_alarms` / `check_alarms` /
`process_alarm`), the alarm tool operations (`create_alarm`,
`update_alarm`, `delete_alarm`), and the bounded user chat history
(`UserContextService.append_message_to_user_context`).

Datetimes are modelled as integers (an absolute UTC instant on a
linear time axis); the SQLAlchemy store is modelled as the ordered list
of its rows (row order = insertion/rowid order, which is how result sets
come back for the queries at hand, none of which carries an ORDER BY);
the asyncio event queue is modelled as the list of enqueued items.
-/

namespace DiscordBot

/-- A `TimeStampedMessage` (src/discordbot/models/message.py): a chat
message carrying the langchain `id` (optional) and `content` fields plus
the `timestamp` field added by the subclass.  The role subclasses
(human/ai/system) are irrelevant to the merge and are not distinguished. -/
structure TimeStampedMessage where
  id : Option String
  content : String
  timestamp : Int
deriving Repr, DecidableEq

/-- The loop body of `Orchestrator.merge_chat_history`
(src/discordbot/orchestrator/orchestrator.py, lines 96-109), iterating
over `chain(*histories)`.  The Python `unique_messages` dict is modelled
as an insertion-ordered association list; `raise ValueError` is modelled
as `Except.error`. -/
def mergeLoop : List TimeStampedMessage → List (String × TimeStampedMessage) →
    Except String (List (String × TimeStampedMessage))
  | [], acc => Except.ok acc
  | m :: rest, acc =>
    match m.id with
    | some i =>
      if i ∈ acc.map Prod.fst then
        mergeLoop rest acc
      else
        mergeLoop rest (acc ++ [(i, m)])
    | none => Except.error ("Message ID for message " ++ m.content ++ " is None")

/-- `Orchestrator.merge_chat_history(*histories)`: deduplicate the
concatenation of the input histories by id (first occurrence wins,
`ValueError` on a missing id) and return the dict's values, i.e. the kept
messages in insertion order. -/
def merge_chat_history (histories : List (List TimeStampedMessage)) :
    Except String (List TimeStampedMessage) :=
  (mergeLoop histories.flatten []).map (List.map Prod.snd)

/-- Accumulator-free description of the deduplication loop: keep the
first occurrence of every id not already in `seen`.  (Only meaningful on
inputs whose ids are all non-null; used to reason about `mergeLoop`.) -/
def dedupSeen (seen : List String) : List TimeStampedMessage →
    List (String × TimeStampedMessage)
  | [] => []
  | m :: rest =>
    match m.id with
    | some i =>
      if i ∈ seen then dedupSeen seen rest
      else (i, m) :: dedupSeen (i :: seen) rest
    | none => []

/-- A sequence of messages is chronologically sorted (the spec's
"sorted by timestamp ascending"); written from the spec's words, for
comparison with what the code returns. -/
def sortedByTimestamp (l : List TimeStampedMessage) : Prop :=
  List.Pairwise (fun x y => x.timestamp ≤ y.timestamp) l

instance (l : List TimeStampedMessage) : Decidable (sortedByTimestamp l) :=
  inferInstanceAs (Decidable (List.Pairwise _ l))

/-- An `Alarm` row (src/discordbot/services/alarm/orm/alarm.py):
integer primary key, trigger time, description, owner and channel. -/
structure Alarm where
  alarm_id : Nat
  trigger_time : Int
  description : String
  user_id : String
  channel_id : String
deriving Repr, DecidableEq

/-- Modelled from the spec: `EventContext` is
`{event_source, event_description, additional_data: map}` (spec section 3);
the class file `discordbot/models/event_context.py` is not present in the
sources, but its construction site in `AlarmService.process_alarm` shows
the three fields, `additional_data` being the map `{"alarm_id": ...}`,
modelled here as the bare id. -/
structure EventContext where
  event_source : String
  event_description : String
  alarm_id : Nat
deriving Repr, DecidableEq

/-- The `EventContext` that `AlarmService.process_alarm`
(src/discordbot/services/alarm/service.py, lines 156-176) builds for a
fired alarm. -/
def mkAlarmEventContext (a : Alarm) : EventContext :=
  { event_source := "AlarmService"
  , event_description := "Processing alarm with description: " ++ a.description
  , alarm_id := a.alarm_id }

/-- The constant `CHECK_INTERVAL = 60` of
src/discordbot/services/alarm/service.py. -/
def CHECK_INTERVAL : Int := 60

/-- `AlarmService.delete_old_alarms` (service.py, lines 130-140): delete
every row with `trigger_time < now - check_interval` (strict `<`); the
rows that remain are exactly the others. -/
def delete_old_alarms (now interval : Int) (store : List Alarm) : List Alarm :=
  store.filter (fun a => ¬ (a.trigger_time < now - interval))

/-- `AlarmService.process_alarm` (service.py, lines 156-176): push the
alarm's `EventContext` onto the event queue (`put_nowait`, never blocking
on the unbounded queue), then delete the row (`session.delete`, keyed by
the primary key `alarm_id`). -/
def process_alarm (st : List Alarm × List EventContext) (a : Alarm) :
    List Alarm × List EventContext :=
  (st.1.filter (fun b => b.alarm_id ≠ a.alarm_id), st.2 ++ [mkAlarmEventContext a])

/-- The SQL predicate of `AlarmService.check_alarms` (service.py, lines
147-149): `trigger_time <= now AND trigger_time > check_from` with
`check_from = now - check_interval`. -/
def fireCond (now interval : Int) (a : Alarm) : Bool :=
  decide (a.trigger_time ≤ now) && decide (now - interval < a.trigger_time)

/-- `AlarmService.check_alarms` (service.py, lines 142-154): select the
active alarms (in store row order — the select carries no ORDER BY) and
process each one in turn. -/
def check_alarms (now interval : Int) (store : List Alarm)
    (queue : List EventContext) : List Alarm × List EventContext :=
  let active := store.filter (fireCond now interval)
  active.foldl process_alarm (store, queue)

/-- One tick of `AlarmService.start` (service.py, lines 105-110):
`delete_old_alarms` then `check_alarms` inside one session, committed
together.  The two `datetime.now()` calls inside one pass are modelled as
the same instant `now`. -/
def check_pass (now interval : Int) (store : List Alarm)
    (queue : List EventContext) : List Alarm × List EventContext :=
  check_alarms now interval (delete_old_alarms now interval store) queue

/-- A fired-alarm list is in ascending trigger-time order; written from
the spec's words ("enqueued in ascending trigger_time order"), for
comparison with the order the code actually enqueues. -/
def ascendingByTriggerTime (l : List Alarm) : Prop :=
  List.Pairwise (fun x y => x.trigger_time ≤ y.trigger_time) l

instance (l : List Alarm) : Decidable (ascendingByTriggerTime l) :=
  inferInstanceAs (Decidable (List.Pairwise _ l))

/-- Python truthiness of an optional string argument (`if trigger_time:`):
`None` and the empty string are both falsy. -/
def truthy (s : Option String) : Option String :=
  match s with
  | some s => if s = "" then none else some s
  | none => none

/-- `AlarmService.create_alarm` (service.py, lines 20-38).  The call
`datetime.fromisoformat` plus UTC normalisation is a stdlib call,
abstracted as a parameter `parse` returning the normalised instant, or
`none` when the string is malformed (the `ValueError` branch); the
exception's text is abstracted as the offending string.  `session.add`
appends a fresh row (autoincrement key `nextId`).  The function returns a
string in every case — the `except` clause turns the parse failure into a
result string instead of letting it propagate. -/
def create_alarm (parse : String → Option Int) (nextId : Nat)
    (store : List Alarm) (trigger_time description user_id channel_id : String) :
    String × List Alarm :=
  match parse trigger_time with
  | some t =>
      ("Alarm created with trigger time " ++ toString t,
       store ++ [⟨nextId, t, description, user_id, channel_id⟩])
  | none =>
      ("Failed to create alarm: Failed to parse trigger time: " ++ trigger_time,
       store)

/-- `AlarmService.update_alarm` (service.py, lines 55-79).  `session.get`
by primary key is `find?` on the id; an unknown id returns the
"not found" string; a malformed trigger time hits the `except` clause
(its message is built by interpolating the already-prefixed `error_msg`,
hence the doubled prefix) and leaves the row untouched, since the
assignment only happens after a successful parse. -/
def update_alarm (parse : String → Option Int) (store : List Alarm)
    (alarm_id : Nat) (trigger_time : Option String)
    (description : Option String) : String × List Alarm :=
  match store.find? (fun a => a.alarm_id == alarm_id) with
  | none => ("Alarm " ++ toString alarm_id ++ " not found", store)
  | some _ =>
    let setFields : Option Int → List Alarm := fun t =>
      store.map (fun a =>
        if a.alarm_id = alarm_id then
          { a with trigger_time := t.getD a.trigger_time
                 , description := (truthy description).getD a.description }
        else a)
    match truthy trigger_time with
    | some s =>
      match parse s with
      | some t =>
          ("Alarm " ++ toString alarm_id ++ " updated successfully",
           setFields (some t))
      | none =>
          ("Failed to update alarm: Failed to update alarm: " ++ s, store)
    | none =>
        ("Alarm " ++ toString alarm_id ++ " updated successfully",
         setFields none)

/-- `AlarmService.delete_alarm` (service.py, lines 81-91): delete by
primary key, or return the "not found" string. -/
def delete_alarm (store : List Alarm) (alarm_id : Nat) : String × List Alarm :=
  match store.find? (fun a => a.alarm_id == alarm_id) with
  | none => ("Alarm " ++ toString alarm_id ++ " not found", store)
  | some _ =>
      ("Alarm " ++ toString alarm_id ++ " deleted successfully",
       store.filter (fun a => a.alarm_id ≠ alarm_id))

/-- `UserContextService.CHAT_HISTORY_LIMIT = 16`
(src/discordbot/services/user_context/user_context_service.py). -/
def CHAT_HISTORY_LIMIT : Nat := 16

/-- The history update of
`UserContextService.append_message_to_user_context` (discordbot, line 42)
and of the hangoutsscheduler `UserContextService._update_history`
(with limit 8): `[*history, message][-limit:]`.  For `limit > 0` the
Python slice keeps the last `min(limit, len)` elements, which is
`drop (len - limit)` with truncated subtraction. -/
def update_history (limit : Nat) (history : List TimeStampedMessage)
    (m : TimeStampedMessage) : List TimeStampedMessage :=
  let l := history ++ [m]
  l.drop (l.length - limit)

/-- `UserContextService.append_message_to_user_context` (discordbot,
lines 33-45), restricted to its history-update effect on the stored row. -/
def append_message_to_user_context (history : List TimeStampedMessage)
    (m : TimeStampedMessage) : List TimeStampedMessage :=
  update_history CHAT_HISTORY_LIMIT history m

/-! ### Properties of the chat-history merge -/

lemma dedupSeen_congr (L : List TimeStampedMessage) :
    ∀ s1 s2 : List String, (∀ x, x ∈ s1 ↔ x ∈ s2) →
      dedupSeen s1 L = dedupSeen s2 L := by
  induction L with
  | nil => intro s1 s2 _; rfl
  | cons m rest ih =>
    intro s1 s2 h
    cases hm : m.id with
    | none => simp [dedupSeen, hm]
    | some i =>
      simp only [dedupSeen, hm]
      by_cases hi : i ∈ s1
      · rw [if_pos hi, if_pos ((h i).mp hi), ih s1 s2 h]
      · rw [if_neg hi, if_neg (fun c => hi ((h i).mpr c)),
          ih (i :: s1) (i :: s2) (fun x => by
            rw [List.mem_cons, List.mem_cons, h x])]

lemma mergeLoop_eq_dedupSeen :
    ∀ (L : List TimeStampedMessage) (acc : List (String × TimeStampedMessage)),
      (∀ m ∈ L, m.id ≠ none) →
      mergeLoop L acc = Except.ok (acc ++ dedupSeen (acc.map Prod.fst) L) := by
  intro L
  induction L with
  | nil => intro acc _; simp [mergeLoop, dedupSeen]
  | cons m rest ih =>
    intro acc h
    obtain ⟨i, hi⟩ : ∃ i, m.id = some i := by
      cases hm : m.id with
      | none => exact absurd hm (h m (List.mem_cons_self m rest))
      | some i => exact ⟨i, rfl⟩
    have hrest : ∀ x ∈ rest, x.id ≠ none := fun x hx => h x (List.mem_cons_of_mem m hx)
    simp only [mergeLoop, dedupSeen, hi]
    by_cases hmem : i ∈ acc.map Prod.fst
    · rw [if_pos hmem, if_pos hmem, ih acc hrest]
    · rw [if_neg hmem, if_neg hmem, ih (acc ++ [(i, m)]) hrest]
      rw [List.map_append,
        dedupSeen_congr rest (acc.map Prod.fst ++ [(i, m)].map Prod.fst)
          (i :: acc.map Prod.fst)
          (fun x => by simp [List.mem_append, List.mem_cons, or_comm]),
        List.append_assoc]
      rfl

lemma dedupSeen_sublist :
    ∀ (L : List TimeStampedMessage) (s : List String),
      ((dedupSeen s L).map Prod.snd).Sublist L := by
  intro L
  induction L with
  | nil => intro s; simp [dedupSeen]
  | cons m rest ih =>
    intro s
    cases hm : m.id with
    | none => simp [dedupSeen, hm]
    | some i =>
      simp only [dedupSeen, hm]
      by_cases hi : i ∈ s
      · rw [if_pos hi]
        exact (ih s).cons m
      · rw [if_neg hi]
        exact (ih (i :: s)).cons₂ m

lemma dedupSeen_filter (i : String) :
    ∀ (L : List TimeStampedMessage) (seen : List String),
      (∀ m ∈ L, m.id ≠ none) →
      ((dedupSeen seen L).map Prod.snd).filter (fun m => m.id = some i) =
        if i ∈ seen then [] else
          (L.find? (fun m => m.id = some i)).toList := by
  intro L
  induction L with
  | nil => intro seen _; simp [dedupSeen]
  | cons m rest ih =>
    intro seen h
    obtain ⟨j, hj⟩ : ∃ j, m.id = some j := by
      cases hm : m.id with
      | none => exact absurd hm (h m (List.mem_cons_self m rest))
      | some j => exact ⟨j, rfl⟩
    have hrest : ∀ x ∈ rest, x.id ≠ none := fun x hx => h x (List.mem_cons_of_mem m hx)
    simp only [dedupSeen, hj]
    by_cases hjs : j ∈ seen
    · rw [if_pos hjs, ih seen hrest]
      by_cases his : i ∈ seen
      · rw [if_pos his, if_pos his]
      · have hji : j ≠ i := fun e => his (e ▸ hjs)
        rw [if_neg his, if_neg his, List.find?_cons_of_neg]
        simp [hj, hji]
    · rw [if_neg hjs]
      by_cases hij : i = j
      · subst hij
        have his : i ∉ seen := hjs
        rw [if_neg his, List.map_cons,
          List.filter_cons_of_pos (by simp [hj]),
          List.find?_cons_of_pos _ (by simp [hj]),
          ih (i :: seen) hrest, if_pos (List.mem_cons_self i seen)]
        simp [Option.toList]
      · have hji : j ≠ i := fun e => hij e.symm
        rw [List.map_cons,
          List.filter_cons_of_neg (by simp [hj, hji]),
          List.find?_cons_of_neg _ (by simp [hj, hji]),
          ih (j :: seen) hrest]
        by_cases his : i ∈ seen
        · rw [if_pos (List.mem_cons_of_mem j his), if_pos his]
        · rw [if_neg (fun c => his ((List.mem_cons.mp c).resolve_left hij)),
            if_neg his]

lemma dedupSeen_append :
    ∀ (L1 L2 : List TimeStampedMessage) (s : List String),
      (∀ m ∈ L1, m.id ≠ none) →
      dedupSeen s (L1 ++ L2) =
        dedupSeen s L1 ++
          dedupSeen (L1.filterMap (fun m => m.id) ++ s) L2 := by
  intro L1
  induction L1 with
  | nil => intro L2 s _; simp [dedupSeen]
  | cons m rest ih =>
    intro L2 s h
    obtain ⟨j, hj⟩ : ∃ j, m.id = some j := by
      cases hm : m.id with
      | none => exact absurd hm (h m (List.mem_cons_self m rest))
      | some j => exact ⟨j, rfl⟩
    have hrest : ∀ x ∈ rest, x.id ≠ none := fun x hx => h x (List.mem_cons_of_mem m hx)
    simp only [List.cons_append, dedupSeen, hj, List.filterMap_cons_some hj,
      List.append_eq]
    by_cases hjs : j ∈ s
    · simp only [if_pos hjs]
      rw [ih L2 s hrest]
      congr 1
      refine dedupSeen_congr L2 _ _ (fun x => ?_)
      simp only [List.cons_append, List.mem_cons, List.mem_append]
      constructor
      · intro hx; exact Or.inr hx
      · rintro (rfl | hx)
        · exact Or.inr hjs
        · exact hx
    · simp only [if_neg hjs]
      rw [ih L2 (j :: s) hrest, List.cons_append]
      congr 2
      refine dedupSeen_congr L2 _ _ (fun x => ?_)
      simp only [List.cons_append, List.mem_cons, List.mem_append]
      tauto

lemma dedupSeen_eq_nil :
    ∀ (L : List TimeStampedMessage) (s : List String),
      (∀ m ∈ L, ∀ i, m.id = some i → i ∈ s) → dedupSeen s L = [] := by
  intro L
  induction L with
  | nil => intro s _; rfl
  | cons m rest ih =>
    intro s h
    cases hm : m.id with
    | none => simp [dedupSeen, hm]
    | some j =>
      simp only [dedupSeen, hm]
      rw [if_pos (h m (List.mem_cons_self m rest) j hm)]
      exact ih s (fun x hx => h x (List.mem_cons_of_mem m hx))

lemma mergeLoop_error :
    ∀ (L : List TimeStampedMessage) (acc : List (String × TimeStampedMessage)),
      (∃ m ∈ L, m.id = none) → ∃ e, mergeLoop L acc = Except.error e := by
  intro L
  induction L with
  | nil => intro acc h; exact absurd h (by simp)
  | cons m rest ih =>
    intro acc h
    cases hm : m.id with
    | none =>
      exact ⟨"Message ID for message " ++ m.content ++ " is None",
        by simp only [mergeLoop, hm]⟩
    | some i =>
      obtain ⟨w, hw, hwid⟩ := h
      rcases List.mem_cons.mp hw with rfl | hw
      · exact absurd hwid (by simp [hm])
      · simp only [mergeLoop, hm]
        by_cases hmem : i ∈ acc.map Prod.fst
        · rw [if_pos hmem]; exact ih acc ⟨w, hw, hwid⟩
        · rw [if_neg hmem]; exact ih (acc ++ [(i, m)]) ⟨w, hw, hwid⟩

lemma allSome_flatten (hs : List (List TimeStampedMessage))
    (h : ∀ l ∈ hs, ∀ m ∈ l, m.id ≠ none) :
    ∀ m ∈ hs.flatten, m.id ≠ none := by
  intro m hm
  obtain ⟨l, hl, hml⟩ := List.mem_flatten.mp hm
  exact h l hl m hml

lemma merge_chat_history_eq (hs : List (List TimeStampedMessage))
    (h : ∀ l ∈ hs, ∀ m ∈ l, m.id ≠ none) :
    merge_chat_history hs =
      Except.ok ((dedupSeen [] hs.flatten).map Prod.snd) := by
  unfold merge_chat_history
  rw [mergeLoop_eq_dedupSeen hs.flatten [] (allSome_flatten hs h)]
  simp [Except.map]

/-! ### Claim theorems about the merge -/

/-- C1, counterexample: the code's merge keeps first-occurrence
(concatenation) order and applies no timestamp sort, so a single input
history whose messages are out of chronological order is returned as is:
merging the one history [{id:a,t:2},{id:b,t:1}] (all ids non-null) yields
a sequence that is not sorted by timestamp ascending. -/
theorem merge_sorted_claim_cex :
    (∀ l ∈ [[(⟨some "a", "", 2⟩ : TimeStampedMessage), ⟨some "b", "", 1⟩]],
      ∀ m ∈ l, m.id ≠ none) ∧
    merge_chat_history [[(⟨some "a", "", 2⟩ : TimeStampedMessage), ⟨some "b", "", 1⟩]] =
      Except.ok [⟨some "a", "", 2⟩, ⟨some "b", "", 1⟩] ∧
    ¬ sortedByTimestamp [⟨some "a", "", 2⟩, ⟨some "b", "", 1⟩] :=
  ⟨by decide, rfl, by decide⟩

/-- C1, amended: for histories whose ids are all non-null the merge
succeeds and returns exactly each id's first occurrence, in
first-occurrence order: the result is a subsequence of the concatenation
of the sources (so its order is the concatenation order — the stable
source-order tie-break of the claim), and for every id the messages of
the result carrying that id are exactly the singleton first occurrence
of that id in the concatenation (empty when the id does not occur); no
timestamp sort is applied.  The claim's example still merges to
[a, b, c] (see the witness). -/
theorem merge_first_occurrence_order :
    ∀ hs : List (List TimeStampedMessage),
      (∀ l ∈ hs, ∀ m ∈ l, m.id ≠ none) →
      ∃ R, merge_chat_history hs = Except.ok R ∧ R.Sublist hs.flatten ∧
        ∀ i : String, R.filter (fun m => m.id = some i) =
          (hs.flatten.find? (fun m => m.id = some i)).toList := by
  intro hs h
  refine ⟨_, merge_chat_history_eq hs h, dedupSeen_sublist hs.flatten [], ?_⟩
  intro i
  rw [dedupSeen_filter i hs.flatten [] (allSome_flatten hs h),
    if_neg (List.not_mem_nil i)]

/-- Witness for C1 (amended), at the claim's example
[{id:a,t:1},{id:b,t:2}] merged with [{id:b,t:2},{id:c,t:3}], the second
occurrence of id b carrying different content so that first-wins
selection is observable: the merge yields exactly [a, b, c] with b's
first-source content. -/
theorem merge_first_occurrence_order_witness :
    (∀ l ∈ [[(⟨some "a", "", 1⟩ : TimeStampedMessage), ⟨some "b", "first", 2⟩],
            [⟨some "b", "second", 2⟩, ⟨some "c", "", 3⟩]], ∀ m ∈ l, m.id ≠ none) ∧
    (∃ R, merge_chat_history
            [[(⟨some "a", "", 1⟩ : TimeStampedMessage), ⟨some "b", "first", 2⟩],
             [⟨some "b", "second", 2⟩, ⟨some "c", "", 3⟩]] = Except.ok R ∧
        R.Sublist [[(⟨some "a", "", 1⟩ : TimeStampedMessage), ⟨some "b", "first", 2⟩],
            [⟨some "b", "second", 2⟩, ⟨some "c", "", 3⟩]].flatten ∧
        ∀ i : String, R.filter (fun m => m.id = some i) =
          ([[(⟨some "a", "", 1⟩ : TimeStampedMessage), ⟨some "b", "first", 2⟩],
            [⟨some "b", "second", 2⟩, ⟨some "c", "", 3⟩]].flatten.find?
              (fun m => m.id = some i)).toList) ∧
    merge_chat_history [[(⟨some "a", "", 1⟩ : TimeStampedMessage), ⟨some "b", "first", 2⟩],
            [⟨some "b", "second", 2⟩, ⟨some "c", "", 3⟩]] =
      Except.ok [⟨some "a", "", 1⟩, ⟨some "b", "first", 2⟩, ⟨some "c", "", 3⟩] :=
  ⟨by decide, merge_first_occurrence_order _ (by decide), rfl⟩

/-- C5: for histories whose ids are all non-null and any id occurring in
them, the merge result contains exactly one message with that id, namely
the first occurrence in the concatenation of the sources; later messages
with the same id are dropped whole. -/
theorem merge_dedup_first_occurrence :
    ∀ (hs : List (List TimeStampedMessage)) (i : String),
      (∀ l ∈ hs, ∀ m ∈ l, m.id ≠ none) →
      (∃ m ∈ hs.flatten, m.id = some i) →
      ∃ m R, merge_chat_history hs = Except.ok R ∧
        hs.flatten.find? (fun x => x.id = some i) = some m ∧
        R.filter (fun x => x.id = some i) = [m] := by
  intro hs i h hocc
  have hfind : (hs.flatten.find? (fun x => x.id = some i)).isSome := by
    rw [List.find?_isSome]
    obtain ⟨m, hm, hid⟩ := hocc
    exact ⟨m, hm, by simp [hid]⟩
  obtain ⟨m, hm⟩ := Option.isSome_iff_exists.mp hfind
  refine ⟨m, _, merge_chat_history_eq hs h, hm, ?_⟩
  rw [dedupSeen_filter i hs.flatten [] (allSome_flatten hs h),
    if_neg (List.not_mem_nil i), hm]
  rfl

/-- Witness for C5, at the claim's example: [{id:a,t:1,content:"x"}]
then [{id:a,t:1,content:"y"}] keeps content "x". -/
theorem merge_dedup_first_occurrence_witness :
    (∀ l ∈ [[(⟨some "a", "x", 1⟩ : TimeStampedMessage)], [⟨some "a", "y", 1⟩]],
      ∀ m ∈ l, m.id ≠ none) ∧
    (∃ m ∈ [[(⟨some "a", "x", 1⟩ : TimeStampedMessage)], [⟨some "a", "y", 1⟩]].flatten,
      m.id = some "a") ∧
    (∃ m R, merge_chat_history
          [[(⟨some "a", "x", 1⟩ : TimeStampedMessage)], [⟨some "a", "y", 1⟩]] =
        Except.ok R ∧
      [[(⟨some "a", "x", 1⟩ : TimeStampedMessage)], [⟨some "a", "y", 1⟩]].flatten.find?
          (fun x => x.id = some "a") = some m ∧
      R.filter (fun x => x.id = some "a") = [m]) ∧
    merge_chat_history [[(⟨some "a", "x", 1⟩ : TimeStampedMessage)], [⟨some "a", "y", 1⟩]] =
      Except.ok [⟨some "a", "x", 1⟩] :=
  ⟨by decide, by decide, merge_dedup_first_occurrence _ _ (by decide) (by decide), rfl⟩

/-- C6: if any message in any input history has a null id, the merge
raises (returns an error) instead of silently dropping the message or
returning a result. -/
theorem merge_null_id_error :
    ∀ hs : List (List TimeStampedMessage),
      (∃ l ∈ hs, ∃ m ∈ l, m.id = none) →
      ∃ e, merge_chat_history hs = Except.error e := by
  intro hs h
  obtain ⟨l, hl, m, hm, hid⟩ := h
  obtain ⟨e, he⟩ := mergeLoop_error hs.flatten []
    ⟨m, List.mem_flatten.mpr ⟨l, hl, hm⟩, hid⟩
  refine ⟨e, ?_⟩
  unfold merge_chat_history
  rw [he]
  rfl

/-- Witness for C6: a single history containing one message with a null
id makes the merge fail. -/
theorem merge_null_id_error_witness :
    (∃ l ∈ [[(⟨none, "z", 0⟩ : TimeStampedMessage)]], ∃ m ∈ l, m.id = none) ∧
    ∃ e, merge_chat_history [[(⟨none, "z", 0⟩ : TimeStampedMessage)]] =
      Except.error e :=
  ⟨by decide, merge_null_id_error _ (by decide)⟩

/-- C7: the merge is idempotent with respect to duplicating its input:
for histories whose ids are all non-null, merging H equals merging H
followed by H again — every message of the second copy is dropped by the
id-deduplication. -/
theorem merge_idempotent :
    ∀ hs : List (List TimeStampedMessage),
      (∀ l ∈ hs, ∀ m ∈ l, m.id ≠ none) →
      merge_chat_history hs = merge_chat_history (hs ++ hs) := by
  intro hs h
  have h2 : ∀ l ∈ hs ++ hs, ∀ m ∈ l, m.id ≠ none := by
    intro l hl
    rcases List.mem_append.mp hl with hl | hl
    · exact h l hl
    · exact h l hl
  rw [merge_chat_history_eq hs h, merge_chat_history_eq (hs ++ hs) h2,
    List.flatten_append,
    dedupSeen_append hs.flatten hs.flatten [] (allSome_flatten hs h),
    dedupSeen_eq_nil hs.flatten (hs.flatten.filterMap (fun m => m.id) ++ [])
      (fun m hm i hi =>
        List.mem_append.mpr (Or.inl (List.mem_filterMap.mpr ⟨m, hm, hi⟩))),
    List.append_nil]

/-- Witness for C7: duplicating a concrete two-message history changes
nothing in the merge result. -/
theorem merge_idempotent_witness :
    (∀ l ∈ [[(⟨some "a", "x", 1⟩ : TimeStampedMessage), ⟨some "b", "", 2⟩]],
      ∀ m ∈ l, m.id ≠ none) ∧
    merge_chat_history [[(⟨some "a", "x", 1⟩ : TimeStampedMessage), ⟨some "b", "", 2⟩]] =
      merge_chat_history ([[(⟨some "a", "x", 1⟩ : TimeStampedMessage), ⟨some "b", "", 2⟩]] ++
        [[(⟨some "a", "x", 1⟩ : TimeStampedMessage), ⟨some "b", "", 2⟩]]) :=
  ⟨by decide, merge_idempotent _ (by decide)⟩

/-! ### Properties of the alarm check pass -/

lemma foldl_process_alarm :
    ∀ (active : List Alarm) (s : List Alarm) (q : List EventContext),
      active.foldl process_alarm (s, q) =
        (s.filter (fun b => b.alarm_id ∉ active.map Alarm.alarm_id),
         q ++ active.map mkAlarmEventContext) := by
  intro active
  induction active with
  | nil => intro s q; simp
  | cons a rest ih =>
    intro s q
    rw [List.foldl_cons,
      show process_alarm (s, q) a =
        (s.filter (fun b => b.alarm_id ≠ a.alarm_id),
         q ++ [mkAlarmEventContext a]) from rfl,
      ih]
    simp only [Prod.mk.injEq]
    constructor
    · rw [List.filter_filter]
      refine List.filter_congr (fun b _ => ?_)
      by_cases h1 : b.alarm_id = a.alarm_id <;>
        by_cases h2 : b.alarm_id ∈ rest.map Alarm.alarm_id <;>
          simp [h1, h2, List.mem_cons]
    · simp

lemma check_alarms_eq (now interval : Int) (store : List Alarm)
    (queue : List EventContext) :
    check_alarms now interval store queue =
      (store.filter (fun b =>
         b.alarm_id ∉ (store.filter (fireCond now interval)).map Alarm.alarm_id),
       queue ++ (store.filter (fireCond now interval)).map mkAlarmEventContext) :=
  foldl_process_alarm _ store queue

lemma delete_old_filter_fire (now interval : Int) (store : List Alarm) :
    (delete_old_alarms now interval store).filter (fireCond now interval) =
      store.filter (fireCond now interval) := by
  unfold delete_old_alarms
  rw [List.filter_filter]
  refine List.filter_congr (fun a _ => ?_)
  cases hf : fireCond now interval a
  · simp
  · have h1 : now - interval < a.trigger_time := by
      simp only [fireCond, Bool.and_eq_true, decide_eq_true_eq] at hf
      exact hf.2
    have h2 : ¬ (a.trigger_time < now - interval) := by omega
    simp [h2]

lemma check_pass_fst (now interval : Int) (store : List Alarm)
    (queue : List EventContext) :
    (check_pass now interval store queue).1 =
      (delete_old_alarms now interval store).filter (fun b =>
        b.alarm_id ∉ (store.filter (fireCond now interval)).map Alarm.alarm_id) := by
  unfold check_pass
  rw [check_alarms_eq]
  simp only [delete_old_filter_fire]

lemma mkAlarmEventContext_alarm_id {a b : Alarm}
    (h : mkAlarmEventContext a = mkAlarmEventContext b) :
    a.alarm_id = b.alarm_id := by
  simpa [mkAlarmEventContext] using congrArg EventContext.alarm_id h

lemma mem_fired_queue (now interval : Int) (store : List Alarm) (a : Alarm)
    (hn : (store.map Alarm.alarm_id).Nodup) (ha : a ∈ store)
    (hmem : mkAlarmEventContext a ∈
      (store.filter (fireCond now interval)).map mkAlarmEventContext) :
    fireCond now interval a = true := by
  obtain ⟨b, hb, hev⟩ := List.mem_map.mp hmem
  have hbstore := List.mem_of_mem_filter hb
  have hfire := List.of_mem_filter hb
  have hba : b = a :=
    List.inj_on_of_nodup_map hn hbstore ha (mkAlarmEventContext_alarm_id hev)
  exact hba ▸ hfire

/-! ### Claim theorems about the alarm check pass -/

/-- C2: within one check pass (both queries evaluated at the same
instant `now`), every stored alarm inside the fire window
`now − interval < trigger_time ≤ now` has exactly one `EventContext`
enqueued and is deleted from the store, and no event is enqueued for any
stored alarm outside the window.  Store rows have pairwise distinct
primary keys. -/
theorem alarm_fire_window (now interval : Int) (store : List Alarm) (a : Alarm)
    (hn : (store.map Alarm.alarm_id).Nodup) (ha : a ∈ store) :
    (fireCond now interval a = true →
      (check_pass now interval store []).2.count (mkAlarmEventContext a) = 1 ∧
      a ∉ (check_pass now interval store []).1) ∧
    (fireCond now interval a = false →
      mkAlarmEventContext a ∉ (check_pass now interval store []).2) := by
  have hq : (check_pass now interval store []).2 =
      (store.filter (fireCond now interval)).map mkAlarmEventContext := by
    unfold check_pass
    rw [check_alarms_eq]
    simp only [delete_old_filter_fire, List.nil_append]
  constructor
  · intro hfire
    constructor
    · rw [hq]
      have hstore : store.Nodup := List.Nodup.of_map Alarm.alarm_id hn
      have hfl : (store.filter (fireCond now interval)).Nodup :=
        hstore.filter _
      have hmap : ((store.filter (fireCond now interval)).map
          mkAlarmEventContext).Nodup :=
        hfl.map_on (fun x hx y hy hxy =>
          List.inj_on_of_nodup_map hn (List.mem_of_mem_filter hx)
            (List.mem_of_mem_filter hy) (mkAlarmEventContext_alarm_id hxy))
      exact List.count_eq_one_of_mem hmap
        (List.mem_map.mpr ⟨a, List.mem_filter.mpr ⟨ha, hfire⟩, rfl⟩)
    · intro hmem
      rw [check_pass_fst] at hmem
      have hpred := List.of_mem_filter hmem
      simp only [decide_eq_true_eq] at hpred
      exact hpred (List.mem_map.mpr
        ⟨a, List.mem_filter.mpr ⟨ha, hfire⟩, rfl⟩)
  · intro hfire hmem
    rw [hq] at hmem
    rw [mem_fired_queue now interval store a hn ha hmem] at hfire
    cases hfire

/-- Witness for C2: with `now = 60`, `interval = 60` and a single stored
alarm at `trigger_time = 30` (inside the window `(0, 60]`). -/
theorem alarm_fire_window_witness :
    (([(⟨1, 30, "d", "u", "c"⟩ : Alarm)].map Alarm.alarm_id).Nodup ∧
     (⟨1, 30, "d", "u", "c"⟩ : Alarm) ∈ [(⟨1, 30, "d", "u", "c"⟩ : Alarm)]) ∧
    ((fireCond 60 60 (⟨1, 30, "d", "u", "c"⟩ : Alarm) = true →
      (check_pass 60 60 [(⟨1, 30, "d", "u", "c"⟩ : Alarm)] []).2.count
        (mkAlarmEventContext ⟨1, 30, "d", "u", "c"⟩) = 1 ∧
      (⟨1, 30, "d", "u", "c"⟩ : Alarm) ∉
        (check_pass 60 60 [(⟨1, 30, "d", "u", "c"⟩ : Alarm)] []).1) ∧
    (fireCond 60 60 (⟨1, 30, "d", "u", "c"⟩ : Alarm) = false →
      mkAlarmEventContext (⟨1, 30, "d", "u", "c"⟩ : Alarm) ∉
        (check_pass 60 60 [(⟨1, 30, "d", "u", "c"⟩ : Alarm)] []).2)) :=
  ⟨⟨by decide, by decide⟩,
    alarm_fire_window 60 60 [⟨1, 30, "d", "u", "c"⟩] ⟨1, 30, "d", "u", "c"⟩
      (by decide) (by decide)⟩

/-- C3, counterexample: an alarm with `trigger_time = now − interval`
exactly satisfies the claim's `trigger_time ≤ now − checkInterval`, yet
the pass leaves it in the store (the eviction query uses strict `<`),
contradicting "that pass deletes the alarm from the store". -/
theorem alarm_stale_boundary_cex :
    (⟨1, 0, "d", "u", "c"⟩ : Alarm).trigger_time ≤ 60 - 60 ∧
    (check_pass 60 60 [(⟨1, 0, "d", "u", "c"⟩ : Alarm)] []).1 =
      [(⟨1, 0, "d", "u", "c"⟩ : Alarm)] ∧
    (check_pass 60 60 [(⟨1, 0, "d", "u", "c"⟩ : Alarm)] []).2 = [] := by
  decide

/-- C3, amended: every stored alarm with
`trigger_time < now − interval` (strict, matching the code's eviction
query) is deleted by the pass and no event is enqueued for it. -/
theorem alarm_stale_dropped (now interval : Int) (store : List Alarm) (a : Alarm)
    (hn : (store.map Alarm.alarm_id).Nodup) (ha : a ∈ store)
    (hstale : a.trigger_time < now - interval) :
    a ∉ (check_pass now interval store []).1 ∧
    mkAlarmEventContext a ∉ (check_pass now interval store []).2 := by
  constructor
  · intro hmem
    rw [check_pass_fst] at hmem
    have h1 := List.mem_of_mem_filter hmem
    have h2 := List.of_mem_filter h1
    simp only [decide_eq_true_eq] at h2
    exact h2 hstale
  · intro hmem
    have hq : (check_pass now interval store []).2 =
        (store.filter (fireCond now interval)).map mkAlarmEventContext := by
      unfold check_pass
      rw [check_alarms_eq]
      simp only [delete_old_filter_fire, List.nil_append]
    rw [hq] at hmem
    have := mem_fired_queue now interval store a hn ha hmem
    simp only [fireCond, Bool.and_eq_true, decide_eq_true_eq] at this
    omega

/-- Witness for C3 (amended): `now = 61`, `interval = 60`, one alarm at
`trigger_time = 0 < 1`: the pass deletes it and enqueues nothing. -/
theorem alarm_stale_dropped_witness :
    (([(⟨1, 0, "d", "u", "c"⟩ : Alarm)].map Alarm.alarm_id).Nodup ∧
     (⟨1, 0, "d", "u", "c"⟩ : Alarm) ∈ [(⟨1, 0, "d", "u", "c"⟩ : Alarm)] ∧
     (⟨1, 0, "d", "u", "c"⟩ : Alarm).trigger_time < 61 - 60) ∧
    ((⟨1, 0, "d", "u", "c"⟩ : Alarm) ∉
      (check_pass 61 60 [(⟨1, 0, "d", "u", "c"⟩ : Alarm)] []).1 ∧
     mkAlarmEventContext (⟨1, 0, "d", "u", "c"⟩ : Alarm) ∉
      (check_pass 61 60 [(⟨1, 0, "d", "u", "c"⟩ : Alarm)] []).2) :=
  ⟨⟨by decide, by decide, by decide⟩,
    alarm_stale_dropped 61 60 [⟨1, 0, "d", "u", "c"⟩] ⟨1, 0, "d", "u", "c"⟩
      (by decide) (by decide) (by decide)⟩

/-- C4, counterexample: two alarms both inside the fire window, stored
with the later trigger time first, are enqueued in store order — the
event of the `t = 10` alarm before the event of the `t = 5` alarm — so
the fired alarms are not enqueued in ascending trigger-time order (the
select carries no ORDER BY). -/
theorem alarm_enqueue_order_cex :
    fireCond 10 60 (⟨1, 10, "a", "u", "c"⟩ : Alarm) = true ∧
    fireCond 10 60 (⟨2, 5, "b", "u", "c"⟩ : Alarm) = true ∧
    (check_pass 10 60 [(⟨1, 10, "a", "u", "c"⟩ : Alarm),
        ⟨2, 5, "b", "u", "c"⟩] []).2 =
      [mkAlarmEventContext ⟨1, 10, "a", "u", "c"⟩,
       mkAlarmEventContext ⟨2, 5, "b", "u", "c"⟩] ∧
    ¬ ascendingByTriggerTime [(⟨1, 10, "a", "u", "c"⟩ : Alarm),
        ⟨2, 5, "b", "u", "c"⟩] := by
  decide

/-- C4, amended: within one check pass the selected alarms are enqueued
in store (row) order — the pass appends to the queue exactly the events
of the alarms satisfying the fire condition, in the order the store
lists them; ascending trigger-time order is not guaranteed. -/
theorem alarm_enqueue_store_order (now interval : Int) (store : List Alarm)
    (queue : List EventContext) :
    (check_pass now interval store queue).2 =
      queue ++ (store.filter (fireCond now interval)).map mkAlarmEventContext := by
  unfold check_pass
  rw [check_alarms_eq]
  simp only [delete_old_filter_fire]

/-- C10: an alarm with `trigger_time` exactly `now − interval` is
selected neither by the stale eviction (strict `<`) nor by the fire
window (strict `>` on the lower bound): the pass keeps it in the store
and enqueues no event for it. -/
theorem alarm_boundary_untouched (now interval : Int) (store : List Alarm)
    (a : Alarm) (hn : (store.map Alarm.alarm_id).Nodup) (ha : a ∈ store)
    (hb : a.trigger_time = now - interval) :
    a ∈ (check_pass now interval store []).1 ∧
    mkAlarmEventContext a ∉ (check_pass now interval store []).2 := by
  have hnotfire : ∀ b ∈ store, b.alarm_id = a.alarm_id →
      fireCond now interval b = false := by
    intro b hbs hid
    have hba : b = a := List.inj_on_of_nodup_map hn hbs ha hid
    subst hba
    simp only [fireCond, hb]
    simp
  constructor
  · rw [check_pass_fst]
    refine List.mem_filter.mpr ⟨?_, ?_⟩
    · unfold delete_old_alarms
      refine List.mem_filter.mpr ⟨ha, ?_⟩
      simp [hb]
    · simp only [decide_eq_true_eq]
      intro hmem
      obtain ⟨b, hbf, hid⟩ := List.mem_map.mp hmem
      have := hnotfire b (List.mem_of_mem_filter hbf) hid
      rw [List.of_mem_filter hbf] at this
      cases this
  · intro hmem
    have hq : (check_pass now interval store []).2 =
        (store.filter (fireCond now interval)).map mkAlarmEventContext := by
      unfold check_pass
      rw [check_alarms_eq]
      simp only [delete_old_filter_fire, List.nil_append]
    rw [hq] at hmem
    have := mem_fired_queue now interval store a hn ha hmem
    rw [hnotfire a ha rfl] at this
    cases this

/-- Witness for C10: `now = 60`, `interval = 60`, one alarm at
`trigger_time = 0 = now − interval`: the pass keeps it and enqueues
nothing. -/
theorem alarm_boundary_untouched_witness :
    (([(⟨1, 0, "d", "u", "c"⟩ : Alarm)].map Alarm.alarm_id).Nodup ∧
     (⟨1, 0, "d", "u", "c"⟩ : Alarm) ∈ [(⟨1, 0, "d", "u", "c"⟩ : Alarm)] ∧
     (⟨1, 0, "d", "u", "c"⟩ : Alarm).trigger_time = 60 - 60) ∧
    ((⟨1, 0, "d", "u", "c"⟩ : Alarm) ∈
      (check_pass 60 60 [(⟨1, 0, "d", "u", "c"⟩ : Alarm)] []).1 ∧
     mkAlarmEventContext (⟨1, 0, "d", "u", "c"⟩ : Alarm) ∉
      (check_pass 60 60 [(⟨1, 0, "d", "u", "c"⟩ : Alarm)] []).2) :=
  ⟨⟨by decide, by decide, by decide⟩,
    alarm_boundary_untouched 60 60 [⟨1, 0, "d", "u", "c"⟩] ⟨1, 0, "d", "u", "c"⟩
      (by decide) (by decide) (by decide)⟩

/-! ### Properties of the bounded user chat history -/

lemma update_history_eq (limit : Nat) (s : List TimeStampedMessage)
    (m : TimeStampedMessage) :
    update_history limit s m = (s ++ [m]).drop ((s ++ [m]).length - limit) := rfl

lemma update_history_length (limit : Nat) (s : List TimeStampedMessage)
    (m : TimeStampedMessage) : (update_history limit s m).length ≤ limit := by
  rw [update_history_eq]
  simp only [List.length_drop, List.length_append, List.length_cons,
    List.length_nil]
  omega

lemma update_history_getLast (limit : Nat) (hl : 0 < limit)
    (s : List TimeStampedMessage) (m : TimeStampedMessage) :
    (update_history limit s m).getLast? = some m := by
  rw [update_history_eq]
  have hd : (s ++ [m]).length - limit ≤ s.length := by
    simp only [List.length_append, List.length_cons, List.length_nil]
    omega
  rw [List.drop_append_of_le_length hd, List.getLast?_concat]

lemma drop_last_append {α : Type} (limit : Nat) (l r : List α) :
    (l.drop (l.length - limit) ++ r).drop
        ((l.drop (l.length - limit) ++ r).length - limit) =
      (l ++ r).drop ((l ++ r).length - limit) := by
  rcases Nat.le_total l.length limit with hc | hc
  · rw [Nat.sub_eq_zero_of_le hc]
    simp
  · have hk : l.length - limit ≤ l.length := Nat.sub_le _ _
    rw [← List.drop_append_of_le_length hk, List.drop_drop]
    congr 1
    simp only [List.length_drop, List.length_append]
    omega

lemma foldl_update_history (limit : Nat) :
    ∀ (msgs s : List TimeStampedMessage), s.length ≤ limit →
      msgs.foldl (update_history limit) s =
        (s ++ msgs).drop ((s ++ msgs).length - limit) := by
  intro msgs
  induction msgs with
  | nil =>
    intro s hs
    simp [Nat.sub_eq_zero_of_le hs]
  | cons m rest ih =>
    intro s hs
    rw [List.foldl_cons, ih (update_history limit s m) (update_history_length limit s m),
      update_history_eq, drop_last_append limit (s ++ [m]) rest,
      List.append_assoc]
    rfl

/-- C8: appending to a history bounded at a positive capacity always
yields a history of length at most the capacity ending with the appended
message, and eviction is strictly FIFO: starting from empty, appending
capacity + 1 messages yields exactly the last capacity of them in append
order (the oldest evicted).  Instantiated at capacity
`CHAT_HISTORY_LIMIT = 16` by the witness; the hangoutsscheduler
`_update_history` is the same expression at capacity 8. -/
theorem bounded_history_fifo :
    ∀ limit : Nat, 0 < limit →
      (∀ (h : List TimeStampedMessage) (m : TimeStampedMessage),
        (update_history limit h m).length ≤ limit ∧
        (update_history limit h m).getLast? = some m) ∧
      (∀ msgs : List TimeStampedMessage, msgs.length = limit + 1 →
        msgs.foldl (update_history limit) [] = msgs.drop 1) := by
  intro limit hl
  constructor
  · intro h m
    exact ⟨update_history_length limit h m, update_history_getLast limit hl h m⟩
  · intro msgs hlen
    rw [foldl_update_history limit msgs [] (by simp), List.nil_append, hlen]
    congr 1
    omega

/-- Witness for C8 at the code's capacity `CHAT_HISTORY_LIMIT = 16`:
appending 17 concrete messages to an empty history through
`append_message_to_user_context` keeps exactly the last 16. -/
theorem bounded_history_fifo_witness :
    0 < CHAT_HISTORY_LIMIT ∧
    ((List.range 17).map
        (fun k => (⟨some (toString k), "", (k : Int)⟩ : TimeStampedMessage))).length =
      CHAT_HISTORY_LIMIT + 1 ∧
    ((List.range 17).map
        (fun k => (⟨some (toString k), "", (k : Int)⟩ : TimeStampedMessage))).foldl
        (update_history CHAT_HISTORY_LIMIT) [] =
      ((List.range 17).map
        (fun k => (⟨some (toString k), "", (k : Int)⟩ : TimeStampedMessage))).drop 1 ∧
    ((List.range 17).map
        (fun k => (⟨some (toString k), "", (k : Int)⟩ : TimeStampedMessage))).foldl
        append_message_to_user_context [] =
      ((List.range 17).map
        (fun k => (⟨some (toString k), "", (k : Int)⟩ : TimeStampedMessage))).drop 1 := by
  refine ⟨by decide, by decide, ?_, ?_⟩
  · exact (bounded_history_fifo CHAT_HISTORY_LIMIT (by decide)).2 _ (by decide)
  · exact (bounded_history_fifo CHAT_HISTORY_LIMIT (by decide)).2 _ (by decide)

/-! ### The alarm tool operations fail as strings -/

/-- C9: every failure mode of the alarm tool operations is reported as a
returned human-readable string and leaves the store unchanged (the
functions are total: nothing propagates to the caller): create with an
unparseable trigger time returns a "Failed to create alarm" string and
adds no alarm; update and delete with an unknown alarm id return the
"not found" string and change nothing. -/
theorem alarm_tools_fail_as_strings :
    (∀ (parse : String → Option Int) (nextId : Nat) (store : List Alarm)
        (tt d u c : String), parse tt = none →
        (create_alarm parse nextId store tt d u c).2 = store ∧
        ∃ msg, (create_alarm parse nextId store tt d u c).1 =
          "Failed to create alarm: " ++ msg) ∧
    (∀ (parse : String → Option Int) (store : List Alarm) (i : Nat)
        (tt descr : Option String), (∀ a ∈ store, a.alarm_id ≠ i) →
        update_alarm parse store i tt descr =
          ("Alarm " ++ toString i ++ " not found", store)) ∧
    (∀ (store : List Alarm) (i : Nat), (∀ a ∈ store, a.alarm_id ≠ i) →
        delete_alarm store i = ("Alarm " ++ toString i ++ " not found", store)) := by
  refine ⟨?_, ?_, ?_⟩
  · intro parse nextId store tt d u c hp
    unfold create_alarm
    rw [hp]
    exact ⟨rfl, "Failed to parse trigger time: " ++ tt, rfl⟩
  · intro parse store i tt descr h
    have hf : store.find? (fun a => a.alarm_id == i) = none :=
      List.find?_eq_none.mpr (fun a ha => by simpa using h a ha)
    unfold update_alarm
    rw [hf]
  · intro store i h
    have hf : store.find? (fun a => a.alarm_id == i) = none :=
      List.find?_eq_none.mpr (fun a ha => by simpa using h a ha)
    unfold delete_alarm
    rw [hf]

/-- Witness for C9: an always-failing parse on create over a one-row
store, and update/delete of the unknown id 7. -/
theorem alarm_tools_fail_as_strings_witness :
    ((create_alarm (fun _ => none) 2 [(⟨1, 0, "d", "u", "c"⟩ : Alarm)]
        "not-a-timestamp" "d" "u" "c").2 = [(⟨1, 0, "d", "u", "c"⟩ : Alarm)] ∧
     ∃ msg, (create_alarm (fun _ => none) 2 [(⟨1, 0, "d", "u", "c"⟩ : Alarm)]
        "not-a-timestamp" "d" "u" "c").1 = "Failed to create alarm: " ++ msg) ∧
    update_alarm (fun _ => none) [(⟨1, 0, "d", "u", "c"⟩ : Alarm)] 7 none none =
      ("Alarm " ++ toString 7 ++ " not found", [(⟨1, 0, "d", "u", "c"⟩ : Alarm)]) ∧
    delete_alarm [(⟨1, 0, "d", "u", "c"⟩ : Alarm)] 7 =
      ("Alarm " ++ toString 7 ++ " not found", [(⟨1, 0, "d", "u", "c"⟩ : Alarm)]) :=
  ⟨alarm_tools_fail_as_strings.1 (fun _ => none) 2 [⟨1, 0, "d", "u", "c"⟩]
      "not-a-timestamp" "d" "u" "c" rfl,
   alarm_tools_fail_as_strings.2.1 (fun _ => none) [⟨1, 0, "d", "u", "c"⟩] 7
      none none (by decide),
   alarm_tools_fail_as_strings.2.2 [⟨1, 0, "d", "u", "c"⟩] 7 (by decide)⟩

end DiscordBot
